import Mathlib

/-!
# go_service/main.go : a verification development

Shallow embedding of `src/go_service/main.go` (the `compute` routine, the two
HTTP handlers) together with the part of Go's standard library the handlers
lean on (`strconv.Atoi`, `url.Values.Get`, the `http.ResponseWriter` protocol).

* Go strings are byte sequences: `GoString = List (Fin 256)`.
* Go's `int` is a two's complement integer of 32 or 64 bits (`WordSize`),
  embedded in `Int` with explicit wrap-around.
* `float64` arithmetic is abstracted by the signature `Float64Ops`; `compute`
  is written once over that signature.  `realOps` interprets it in exact real
  arithmetic.
-/

namespace GoService

/-! ## Go strings -/

/-- A Go string: an immutable sequence of bytes. -/
abbrev GoString := List (Fin 256)

/-- UTF-8 encoding of one code point, as Go stores string literals. -/
def utf8Bytes (c : Nat) : List Nat :=
  if c < 0x80 then [c]
  else if c < 0x800 then [0xC0 + c / 64, 0x80 + c % 64]
  else if c < 0x10000 then [0xE0 + c / 4096, 0x80 + c / 64 % 64, 0x80 + c % 64]
  else [0xF0 + c / 262144, 0x80 + c / 4096 % 64, 0x80 + c / 64 % 64, 0x80 + c % 64]

/-- The bytes of a string literal. -/
def goStr (s : String) : GoString :=
  s.data.flatMap (fun c => (utf8Bytes c.toNat).map (fun b => Fin.ofNat b))

/-! ## Go's `int` -/

/-- The width of Go's `int` on the target: `strconv.IntSize`. -/
inductive WordSize where
  | w32
  | w64
  deriving DecidableEq, Repr

/-- Number of bits of `int`. -/
def WordSize.bits : WordSize → Nat
  | .w32 => 32
  | .w64 => 64

/-- Smallest value of a `w`-bit signed integer. -/
def minInt (w : Nat) : Int := -(2 ^ (w - 1) : Int)

/-- Largest value of a `w`-bit signed integer. -/
def maxInt (w : Nat) : Int := 2 ^ (w - 1) - 1

/-- Two's complement reduction of a mathematical integer to `w` bits. -/
def wrapInt (w : Nat) (x : Int) : Int :=
  (x + 2 ^ (w - 1)) % 2 ^ w - 2 ^ (w - 1)

/-- Unary minus on the `w`-bit `int` type (`-n` in Go). -/
def negInt (w : Nat) (n : Int) : Int := wrapInt w (-n)

/-! ## `strconv.Atoi` -/

/-- The two kinds of `*strconv.NumError` that `Atoi` can return. -/
inductive NumErr where
  | syn
  | range
  deriving DecidableEq, Repr

deriving instance DecidableEq for Except

/-- Loop of `strconv.ParseUint` for base 10 (no underscores): `n` is the
`uint64` accumulator, `maxVal = 1<<bitSize - 1`.  A byte that is no digit is a
syntax error; an accumulator at or above `maxUint64/10 + 1`, or a sum that
wraps or exceeds `maxVal`, is a range error, reported at once. -/
def parseUintLoop (maxVal : Nat) : Nat → GoString → Except NumErr Nat
  | n, [] => .ok n
  | n, c :: cs =>
    if 48 ≤ c.val ∧ c.val ≤ 57 then
      let d := c.val - 48
      if n ≥ (2 ^ 64 - 1) / 10 + 1 then .error .range
      else
        let n10 := n * 10 % 2 ^ 64
        let n1 := (n10 + d) % 2 ^ 64
        if n1 < n10 ∨ n1 > maxVal then .error .range
        else parseUintLoop maxVal n1 cs
    else .error .syn

/-- The call `strconv.ParseUint(s, 10, bitSize)`. -/
def ParseUint (s : GoString) (bitSize : Nat) : Except NumErr Nat :=
  if s = [] then .error .syn
  else parseUintLoop (2 ^ bitSize - 1) 0 s

/-- The call `strconv.ParseInt(s, 10, 0)` on a target whose `int` has
`bitSize` bits, the result being an `int64`. -/
def ParseInt (s : GoString) (bitSize : Nat) : Except NumErr Int :=
  match s with
  | [] => .error .syn
  | c :: cs =>
    let neg := c = 45
    let rest := if c = 43 ∨ c = 45 then cs else s
    match ParseUint rest bitSize with
    | .error .syn => .error .syn
    | r =>
      let un : Nat := match r with
        | .ok u => u
        | .error _ => 2 ^ bitSize - 1
      let cutoff : Nat := 2 ^ (bitSize - 1)
      if ¬ neg ∧ un ≥ cutoff then .error .range
      else if neg ∧ un > cutoff then .error .range
      else
        let n := wrapInt 64 un
        .ok (if neg then wrapInt 64 (-n) else n)

/-- Fast-path loop of `Atoi`: plain accumulation of decimal digits; the byte
subtraction `ch -= 48` wraps, so `ch > 9` afterwards means "no digit". -/
def atoiFastLoop : Int → GoString → Except NumErr Int
  | n, [] => .ok n
  | n, ch :: cs =>
    if (ch - 48).val > 9 then .error .syn
    else atoiFastLoop (n * 10 + ((ch - 48).val : Int)) cs

/-- The function `strconv.Atoi` for a target whose `int` has `ws.bits` bits. -/
def Atoi (ws : WordSize) (s : GoString) : Except NumErr Int :=
  let sLen := s.length
  if (ws = .w32 ∧ 0 < sLen ∧ sLen < 10) ∨ (ws = .w64 ∧ 0 < sLen ∧ sLen < 19) then
    match s with
    | [] => .error .syn
    | c :: cs =>
      let body := if c = 45 ∨ c = 43 then cs else s
      if (c = 45 ∨ c = 43) ∧ body.length < 1 then .error .syn
      else
        match atoiFastLoop 0 body with
        | .error e => .error e
        | .ok n => .ok (if c = 45 then -n else n)
  else
    match ParseInt s ws.bits with
    | .error e => .error e
    | .ok i64 => .ok (wrapInt ws.bits i64)

/-! ### Decimal notation, stated independently of the parser -/

/-- Whether every byte is one of the ten ASCII digits. -/
def allDigits (s : GoString) : Bool :=
  s.all (fun c => decide (48 ≤ c.val ∧ c.val ≤ 57))

/-- Horner evaluation of digit bytes, most significant first, onto `n`. -/
def digitsValueFrom (n : Nat) (s : GoString) : Nat :=
  s.foldl (fun acc c => acc * 10 + (c.val - 48)) n

/-- The natural number a digit sequence denotes. -/
def digitsValue (s : GoString) : Nat := digitsValueFrom 0 s

/-- The integer a text denotes in decimal notation: an optional `+` or `-`
followed by one or more digits; `none` for any other text. -/
def decimalValue (s : GoString) : Option Int :=
  match s with
  | [] => none
  | c :: cs =>
    if c = 45 then
      if cs ≠ [] ∧ allDigits cs then some (-(digitsValue cs : Int)) else none
    else if c = 43 then
      if cs ≠ [] ∧ allDigits cs then some (digitsValue cs : Int) else none
    else if allDigits (c :: cs) then some (digitsValue (c :: cs) : Int) else none

/-! ## The request and its query parameters -/

/-- Go's `url.Values`: a map from key to the list of its values; a key that is
absent maps to the empty list. -/
abbrev Values := GoString → List GoString

/-- The method `url.Values.Get`: first value of the key, or the empty string. -/
def Values.Get (v : Values) (key : GoString) : GoString :=
  match v key with
  | [] => []
  | x :: _ => x

/-- What a handler can read of `*http.Request`: `query` is `r.URL.Query()`. -/
structure Request where
  method : GoString
  header : List (String × String)
  query : Values
  body : GoString

/-- Query values holding the given key/value pairs, in order. -/
def queryOf (kvs : List (String × String)) : Values :=
  fun key => (kvs.filter (fun kv => goStr kv.1 = key)).map (fun kv => goStr kv.2)

/-- A `GET` request with the given query pairs, no headers and no body. -/
def getRequest (kvs : List (String × String)) : Request :=
  ⟨goStr "GET", [], queryOf kvs, []⟩

/-! ## `float64` -/

/-- The `float64` operations that `main.go` uses: conversion from `int`, the
literals `0.0` and `0.5`, `+`, `*`, `/`, `math.Sin`, and the test
"neither NaN nor infinite" that `encoding/json` applies to a float. -/
structure Float64Ops (F : Type) where
  ofInt : Int → F
  zero : F
  half : F
  add : F → F → F
  mul : F → F → F
  div : F → F → F
  sin : F → F
  isFinite : F → Bool

/-- Largest finite `float64`, `(2 - 2^-52) * 2^1023`. -/
noncomputable def maxFloat64 : ℝ := (2 ^ 53 - 1) * 2 ^ 971

/-- Exact real arithmetic as an interpretation of the `float64` operations:
no rounding, no NaN and no infinity, `math.Sin` is the real sine, and a value
counts as finite when its magnitude does not exceed `maxFloat64`.  It is the
arithmetic of the statements made "in exact arithmetic"; what is said of the
IEEE-754 value itself is stated for every interpretation that satisfies
`MagnitudeLaws`. -/
noncomputable def realOps : Float64Ops ℝ where
  ofInt := fun n => (n : ℝ)
  zero := 0
  half := 1 / 2
  add := fun x y => x + y
  mul := fun x y => x * y
  div := fun x y => x / y
  sin := Real.sin
  isFinite := fun x => decide (|x| ≤ maxFloat64)

/-- Laws of round-to-nearest `float64` arithmetic about magnitudes, for a
relation `bound x k` read as "`x` is finite and `|x| ≤ k`".  Each law is a fact
of IEEE-754 arithmetic, of the conversion `float64(n)` or of `math.Sin`, not of
`main.go`: rounding to nearest never moves a result past a representable number,
and powers of two up to `2^1023` and integers up to `2^53` are representable.
* `finite_of_bound`: a value bounded by at most `2^1023` is neither NaN nor infinite;
* `mono`: a bound may be enlarged;
* `ofInt_bound`: `|float64(n)| ≤ 2^e` when `|n| ≤ 2^e`, for `e ≤ 63`;
* `zero_bound`, `half_bound`: the literals `0.0` and `0.5`;
* `add_bound`: `|x + y| ≤ k + m` when `|x| ≤ k`, `|y| ≤ m` and `k + m ≤ 2^53`;
* `mul_bound`: `|x * y| ≤ 2^(a+b)` when `|x| ≤ 2^a`, `|y| ≤ 2^b`, `a + b ≤ 1023`;
* `div_steps_bound`: `|x / 200000| ≤ 2^(a-17)` when `|x| ≤ 2^a` (as `2^17 ≤ 200000`);
* `sin_bound`: `|math.Sin(x)| ≤ 1` for finite `x`. -/
structure MagnitudeLaws {F : Type} (ops : Float64Ops F) (bound : F → Nat → Prop) : Prop where
  finite_of_bound : ∀ (x : F) (k : Nat), bound x k → k ≤ 2 ^ 1023 → ops.isFinite x = true
  mono : ∀ (x : F) (k m : Nat), bound x k → k ≤ m → bound x m
  ofInt_bound : ∀ (n : Int) (e : Nat), e ≤ 63 → n.natAbs ≤ 2 ^ e → bound (ops.ofInt n) (2 ^ e)
  zero_bound : bound ops.zero 0
  half_bound : bound ops.half 1
  add_bound : ∀ (x y : F) (k m : Nat), bound x k → bound y m → k + m ≤ 2 ^ 53 →
    bound (ops.add x y) (k + m)
  mul_bound : ∀ (x y : F) (a b : Nat), bound x (2 ^ a) → bound y (2 ^ b) → a + b ≤ 1023 →
    bound (ops.mul x y) (2 ^ (a + b))
  div_steps_bound : ∀ (x : F) (a : Nat), bound x (2 ^ a) → 17 ≤ a →
    bound (ops.div x (ops.ofInt 200000)) (2 ^ (a - 17))
  sin_bound : ∀ (x : F) (k : Nat), bound x k → bound (ops.sin x) 1

/-- The reading of `bound` in exact real arithmetic. -/
def realBound (x : ℝ) (k : Nat) : Prop := |x| ≤ (k : ℝ)

/-! ## `compute` -/

/-- The local constant `steps` of `compute`. -/
def steps : Nat := 200000

/-- The variables the `for` loop of `compute` updates. -/
structure LoopState (F : Type) where
  i : Nat
  s : F

/-- One pass through the loop body, then `i++` (lines 28-29). -/
def loopBody {F : Type} (ops : Float64Ops F) (h : F) (st : LoopState F) : LoopState F :=
  let x := ops.mul (ops.add (ops.ofInt st.i) ops.half) h
  ⟨st.i + 1, ops.add st.s (ops.sin x)⟩

/-- The loop `for ...; i < steps; i++` (line 27) run from a given state. -/
def loopRun {F : Type} (ops : Float64Ops F) (h : F) (st : LoopState F) : LoopState F :=
  if st.i < steps then loopRun ops h (loopBody ops h st) else st
termination_by steps - st.i
decreasing_by simp only [loopBody]; omega

/-- The function `compute` (lines 22-32). -/
def compute {F : Type} (ops : Float64Ops F) (n : Int) : F :=
  let h := ops.div (ops.ofInt n) (ops.ofInt steps)
  let st := loopRun ops h ⟨0, ops.zero⟩
  ops.mul st.s h

/-- The step width `h` of `compute` (line 25). -/
def stepWidth {F : Type} (ops : Float64Ops F) (n : Int) : F :=
  ops.div (ops.ofInt n) (ops.ofInt steps)

/-- The sample point `x` of iteration `i` (line 28). -/
def samplePoint {F : Type} (ops : Float64Ops F) (h : F) (i : Nat) : F :=
  ops.mul (ops.add (ops.ofInt i) ops.half) h

/-! ## The response writer -/

/-- The struct `computeResp` (lines 15-19). -/
structure computeResp (F : Type) where
  Input : Int
  Result : F
  TookMS : Int

/-- What is written to a response body: raw bytes, or the JSON document (and
its closing newline) that `json.Encoder.Encode` produces for a `computeResp`. -/
inductive Chunk (F : Type) where
  | raw (bytes : GoString)
  | json (v : computeResp F)

/-- State of an `http.ResponseWriter`: the header map that `Header()` hands
out, the status line and header block once they are sent, and the body. -/
structure ResponseWriter (F : Type) where
  header : List (String × String)
  status : Option Nat
  sentHeader : List (String × String)
  body : List (Chunk F)

/-- The writer a handler is handed: nothing set, nothing sent. -/
def ResponseWriter.fresh (F : Type) : ResponseWriter F := ⟨[], none, [], []⟩

/-- The call `w.Header().Set(key, value)`. -/
def ResponseWriter.setHeader {F : Type} (w : ResponseWriter F) (key value : String) :
    ResponseWriter F :=
  ⟨(key, value) :: w.header.filter (fun kv => kv.1 ≠ key), w.status, w.sentHeader, w.body⟩

/-- The call `w.WriteHeader(code)`: the first call fixes status and headers. -/
def ResponseWriter.writeHeader {F : Type} (w : ResponseWriter F) (code : Nat) :
    ResponseWriter F :=
  match w.status with
  | some _ => w
  | none => ⟨w.header, some code, w.header, w.body⟩

/-- The call `w.Write(...)`: sends status 200 first when no status is sent yet. -/
def ResponseWriter.write {F : Type} (w : ResponseWriter F) (c : Chunk F) : ResponseWriter F :=
  let w1 := w.writeHeader 200
  ⟨w1.header, w1.status, w1.sentHeader, w1.body ++ [c]⟩

/-- The call `json.NewEncoder(w).Encode(out)`: a result that is NaN or infinite
makes the encoder return an error before anything is written. -/
def ResponseWriter.encode {F : Type} (ops : Float64Ops F) (w : ResponseWriter F)
    (out : computeResp F) : ResponseWriter F :=
  if ops.isFinite out.Result then w.write (.json out) else w

/-- The response as sent: status, the header map the handler had set when the
header block went out, and the body. -/
structure Response (F : Type) where
  status : Nat
  header : List (String × String)
  body : List (Chunk F)

/-- What the server sends once the handler has returned: a handler that never
wrote gets status 200 with the headers it set. -/
def ResponseWriter.finish {F : Type} (w : ResponseWriter F) : Response F :=
  let w1 := w.writeHeader 200
  ⟨w1.status.getD 200, w1.sentHeader, w1.body⟩

/-- Value of a header of the response, if set. -/
def Response.headerGet {F : Type} (r : Response F) (key : String) : Option String :=
  (r.header.find? (fun kv => kv.1 = key)).map (fun kv => kv.2)

/-! ## The handlers -/

/-- The body literal of `healthHandler`. -/
def healthBody : GoString := goStr "\x7b\"status\":\"ok\"\x7d"

/-- The function `healthHandler` (lines 34-37). -/
def healthHandler {F : Type} (w : ResponseWriter F) (_r : Request) : ResponseWriter F :=
  let w1 := w.setHeader "Content-Type" "application/json"
  w1.write (.raw healthBody)

/-- The text `qs` of line 42: `r.URL.Query().Get("n")`. -/
def qs (r : Request) : GoString := r.query.Get (goStr "n")

/-- Lines 41-46 of `computeHandler`: the resolution of `n`. -/
def resolveN (ws : WordSize) (r : Request) : Int :=
  if qs r ≠ [] then
    match Atoi ws (qs r) with
    | .ok v => if v > 0 then v else 10
    | .error _ => 10
  else 10

/-- The two readings of the monotonic clock in `computeHandler`, in
nanoseconds: `time.Now()` before `compute` and the one inside `time.Since`. -/
structure Clock where
  start : Int
  stop : Int

/-- The value `time.Since(start).Milliseconds()`. -/
def Clock.tookMS (c : Clock) : Int := Int.tdiv (c.stop - c.start) 1000000

/-- The function `computeHandler` (lines 39-55). -/
def computeHandler {F : Type} (ops : Float64Ops F) (ws : WordSize) (clock : Clock)
    (w : ResponseWriter F) (r : Request) : ResponseWriter F :=
  let n := resolveN ws r
  let res := compute ops n
  let took := clock.tookMS
  let w1 := w.setHeader "Content-Type" "application/json"
  let out : computeResp F := ⟨n, res, took⟩
  w1.encode ops out

/-- The server's handling of one request by a handler: a fresh writer, the
handler, then completion of the response. -/
def serve {F : Type} (handler : ResponseWriter F → Request → ResponseWriter F)
    (r : Request) : Response F :=
  (handler (ResponseWriter.fresh F) r).finish


/-! ## Facts about `strconv.Atoi` -/

theorem fast_digit_iff (c : Fin 256) :
    ¬ ((c - 48).val > 9) ↔ (48 ≤ c.val ∧ c.val ≤ 57) := by
  have hc := c.isLt
  have h48 : ((48 : Fin 256) : Nat) = 48 := rfl
  have hv : (c - 48).val = (256 - 48 + c.val) % 256 := by
    rw [Fin.sub_def, h48]
  rw [hv]
  omega

theorem fast_digit_val (c : Fin 256) (h : 48 ≤ c.val ∧ c.val ≤ 57) :
    (c - 48).val = c.val - 48 := by
  have hc := c.isLt
  have h48 : ((48 : Fin 256) : Nat) = 48 := rfl
  have hv : (c - 48).val = (256 - 48 + c.val) % 256 := by
    rw [Fin.sub_def, h48]
  rw [hv]
  omega

theorem allDigits_cons (c : Fin 256) (cs : GoString) :
    allDigits (c :: cs) = (decide (48 ≤ c.val ∧ c.val ≤ 57) && allDigits cs) := by
  simp [allDigits]

theorem digitsValueFrom_cons (n : Nat) (c : Fin 256) (cs : GoString) :
    digitsValueFrom n (c :: cs) = digitsValueFrom (n * 10 + (c.val - 48)) cs := by
  simp [digitsValueFrom]

theorem atoiFastLoop_eq (s : GoString) (n : Nat) :
    atoiFastLoop (n : Int) s =
      if allDigits s then .ok (digitsValueFrom n s : Int) else .error .syn := by
  induction s generalizing n with
  | nil => simp [atoiFastLoop, allDigits, digitsValueFrom]
  | cons c cs ih =>
    rw [atoiFastLoop, allDigits_cons, digitsValueFrom_cons]
    by_cases hd : 48 ≤ c.val ∧ c.val ≤ 57
    · have h1 : ¬ ((c - 48).val > 9) := (fast_digit_iff c).2 hd
      rw [if_neg h1, fast_digit_val c hd]
      have := ih (n * 10 + (c.val - 48))
      push_cast at this
      simp only [hd, and_self, decide_True, Bool.true_and]
      exact this
    · have h1 : (c - 48).val > 9 := by
        by_contra hh
        exact hd ((fast_digit_iff c).1 hh)
      rw [if_pos h1]
      simp [hd]

theorem digitsValueFrom_ge (s : GoString) (n : Nat) : n ≤ digitsValueFrom n s := by
  induction s generalizing n with
  | nil => simp [digitsValueFrom]
  | cons c cs ih =>
    rw [digitsValueFrom_cons]
    have := ih (n * 10 + (c.val - 48))
    omega

theorem digitsValueFrom_lt (s : GoString) (n : Nat) (hs : allDigits s = true) :
    digitsValueFrom n s < (n + 1) * 10 ^ s.length := by
  induction s generalizing n with
  | nil => simp [digitsValueFrom]
  | cons c cs ih =>
    rw [allDigits_cons] at hs
    simp only [Bool.and_eq_true, decide_eq_true_eq] at hs
    rw [digitsValueFrom_cons]
    have h1 := ih (n * 10 + (c.val - 48)) hs.2
    have h2 : (n * 10 + (c.val - 48) + 1) * 10 ^ cs.length ≤ (n + 1) * 10 ^ (c :: cs).length := by
      rw [List.length_cons, pow_succ]
      have : n * 10 + (c.val - 48) + 1 ≤ (n + 1) * 10 := by omega
      calc (n * 10 + (c.val - 48) + 1) * 10 ^ cs.length
          ≤ ((n + 1) * 10) * 10 ^ cs.length := Nat.mul_le_mul_right _ this
        _ = (n + 1) * (10 ^ cs.length * 10) := by ring
    omega

theorem parseUintLoop_digits (maxVal : Nat) (hm : maxVal < 2 ^ 64) (s : GoString) (n : Nat)
    (hn : n ≤ maxVal) (hs : allDigits s = true) :
    parseUintLoop maxVal n s =
      if digitsValueFrom n s ≤ maxVal then .ok (digitsValueFrom n s) else .error .range := by
  induction s generalizing n with
  | nil => simp [parseUintLoop, digitsValueFrom, hn]
  | cons c cs ih =>
    rw [allDigits_cons] at hs
    simp only [Bool.and_eq_true, decide_eq_true_eq] at hs
    obtain ⟨hd, hcs⟩ := hs
    rw [parseUintLoop, if_pos hd, digitsValueFrom_cons]
    have hge := digitsValueFrom_ge cs (n * 10 + (c.val - 48))
    have hc := c.isLt
    norm_num only at hm ⊢
    by_cases hcut : 1844674407370955162 ≤ n
    · rw [if_pos hcut, if_neg (by omega)]
    · rw [if_neg hcut]
      have h10 : n * 10 % 18446744073709551616 = n * 10 := Nat.mod_eq_of_lt (by omega)
      simp only [h10]
      by_cases hov : n * 10 + (c.val - 48) < 18446744073709551616
      · have h1 : (n * 10 + (c.val - 48)) % 18446744073709551616 = n * 10 + (c.val - 48) :=
          Nat.mod_eq_of_lt hov
        simp only [h1]
        by_cases hmax : n * 10 + (c.val - 48) ≤ maxVal
        · rw [if_neg (by omega)]
          exact ih _ hmax hcs
        · rw [if_pos (by omega), if_neg (by omega)]
      · have h1 : (n * 10 + (c.val - 48)) % 18446744073709551616 < n * 10 := by omega
        rw [if_pos (Or.inl h1), if_neg (by omega)]

theorem parseUintLoop_nondigits (maxVal : Nat) (s : GoString) (n : Nat)
    (hs : allDigits s = false) : ∃ e, parseUintLoop maxVal n s = .error e := by
  induction s generalizing n with
  | nil => simp [allDigits] at hs
  | cons c cs ih =>
    rw [allDigits_cons] at hs
    rw [parseUintLoop]
    by_cases hd : 48 ≤ c.val ∧ c.val ≤ 57
    · rw [if_pos hd]
      have hcs : allDigits cs = false := by simpa [hd] using hs
      dsimp only
      split
      · exact ⟨_, rfl⟩
      · split
        · exact ⟨_, rfl⟩
        · exact ih _ hcs
    · rw [if_neg hd]
      exact ⟨_, rfl⟩

theorem ParseUint_digits (b : Nat) (hb : b ≤ 64) (s : GoString) (hne : s ≠ [])
    (hs : allDigits s = true) :
    ParseUint s b =
      if digitsValue s ≤ 2 ^ b - 1 then .ok (digitsValue s) else .error .range := by
  rw [ParseUint, if_neg hne]
  have hm : 2 ^ b - 1 < 2 ^ 64 := by
    have h1 : 2 ^ b ≤ 2 ^ 64 := Nat.pow_le_pow_right (by norm_num) hb
    have h2 : 0 < 2 ^ b := Nat.pow_pos (by norm_num)
    omega
  exact parseUintLoop_digits _ hm s 0 (Nat.zero_le _) hs

theorem ParseUint_nondigits (b : Nat) (s : GoString) (hs : allDigits s = false) :
    ∃ e, ParseUint s b = .error e := by
  rw [ParseUint]
  split
  · exact ⟨_, rfl⟩
  · exact parseUintLoop_nondigits _ s 0 hs

theorem ParseUint_nil (b : Nat) : ParseUint [] b = .error .syn := by
  simp [ParseUint]

theorem wrapInt_64 (x : Int) :
    wrapInt 64 x = (x + 9223372036854775808) % 18446744073709551616 - 9223372036854775808 := by
  unfold wrapInt
  norm_num

theorem wrapInt_32 (x : Int) :
    wrapInt 32 x = (x + 2147483648) % 4294967296 - 2147483648 := by
  unfold wrapInt
  norm_num

/-- Result of `ParseInt` on a sign byte (or none) followed by digits. -/
theorem ParseInt_signed (ws : WordSize) (c : Fin 256) (cs rest : GoString)
    (hrest : rest = if c = 43 ∨ c = 45 then cs else c :: cs)
    (hne : rest ≠ []) (hs : allDigits rest = true) :
    ParseInt (c :: cs) ws.bits =
      if c = 45 then
        (if digitsValue rest ≤ 2 ^ (ws.bits - 1) then .ok (-(digitsValue rest : Int))
         else .error .range)
      else
        (if digitsValue rest < 2 ^ (ws.bits - 1) then .ok (digitsValue rest : Int)
         else .error .range) := by
  have hb : ws.bits ≤ 64 := by cases ws <;> simp [WordSize.bits]
  have hU := ParseUint_digits ws.bits hb rest hne hs
  simp only [ParseInt, ← hrest]
  rw [hU]
  generalize digitsValue rest = u
  have e31 : (2 : Nat) ^ (32 - 1) = 2147483648 := by norm_num
  have e32 : (2 : Nat) ^ 32 - 1 = 4294967295 := by norm_num
  have e63 : (2 : Nat) ^ (64 - 1) = 9223372036854775808 := by norm_num
  have e64 : (2 : Nat) ^ 64 - 1 = 18446744073709551615 := by norm_num
  cases ws <;> simp only [WordSize.bits, e31, e32, e63, e64, wrapInt_64]
  · by_cases hu : u ≤ 4294967295
    · rw [if_pos hu]
      dsimp only
      by_cases hneg : c = 45
      · simp only [hneg, not_true_eq_false, false_and, if_false, true_and, if_true]
        split_ifs <;> first | exact congrArg Except.ok (by omega) | omega | rfl
      · simp only [hneg, not_false_eq_true, false_and, if_false, true_and]
        split_ifs <;> first | exact congrArg Except.ok (by omega) | omega | rfl
    · rw [if_neg hu]
      dsimp only
      by_cases hneg : c = 45
      · simp only [hneg, not_true_eq_false, false_and, if_false, true_and, if_true]
        split_ifs <;> first | exact congrArg Except.ok (by omega) | omega | rfl
      · simp only [hneg, not_false_eq_true, false_and, if_false, true_and]
        split_ifs <;> first | exact congrArg Except.ok (by omega) | omega | rfl
  · by_cases hu : u ≤ 18446744073709551615
    · rw [if_pos hu]
      dsimp only
      by_cases hneg : c = 45
      · simp only [hneg, not_true_eq_false, false_and, if_false, true_and, if_true]
        split_ifs <;> first | exact congrArg Except.ok (by omega) | omega | rfl
      · simp only [hneg, not_false_eq_true, false_and, if_false, true_and]
        split_ifs <;> first | exact congrArg Except.ok (by omega) | omega | rfl
    · rw [if_neg hu]
      dsimp only
      by_cases hneg : c = 45
      · simp only [hneg, not_true_eq_false, false_and, if_false, true_and, if_true]
        split_ifs <;> first | exact congrArg Except.ok (by omega) | omega | rfl
      · simp only [hneg, not_false_eq_true, false_and, if_false, true_and]
        split_ifs <;> first | exact congrArg Except.ok (by omega) | omega | rfl

theorem ParseInt_error (ws : WordSize) (c : Fin 256) (cs : GoString) (e : NumErr)
    (h : ParseUint (if c = 43 ∨ c = 45 then cs else c :: cs) ws.bits = .error e) :
    ∃ e1, ParseInt (c :: cs) ws.bits = .error e1 := by
  simp only [ParseInt]
  rw [h]
  have e31 : (2 : Nat) ^ (32 - 1) = 2147483648 := by norm_num
  have e32 : (2 : Nat) ^ 32 - 1 = 4294967295 := by norm_num
  have e63 : (2 : Nat) ^ (64 - 1) = 9223372036854775808 := by norm_num
  have e64 : (2 : Nat) ^ 64 - 1 = 18446744073709551615 := by norm_num
  cases e with
  | syn => exact ⟨_, rfl⟩
  | range =>
    dsimp only
    cases ws <;> simp only [WordSize.bits, e31, e32, e63, e64]
    all_goals
      by_cases hneg : c = 45
      · simp [hneg]
      · simp [hneg]

theorem Atoi_signed (ws : WordSize) (c : Fin 256) (cs rest : GoString)
    (hrest : rest = if c = 43 ∨ c = 45 then cs else c :: cs)
    (hne : rest ≠ []) (hs : allDigits rest = true) :
    Atoi ws (c :: cs) =
      if c = 45 then
        (if digitsValue rest ≤ 2 ^ (ws.bits - 1) then .ok (-(digitsValue rest : Int))
         else .error .range)
      else
        (if digitsValue rest < 2 ^ (ws.bits - 1) then .ok (digitsValue rest : Int)
         else .error .range) := by
  have hrest2 : (if c = 45 ∨ c = 43 then cs else c :: cs) = rest := by
    rw [hrest]
    by_cases h1 : c = 45 <;> by_cases h2 : c = 43 <;> simp [h1, h2]
  have hlen : rest.length ≤ (c :: cs).length := by
    rw [hrest]
    split_ifs <;> simp
  have hlt : digitsValue rest < 10 ^ rest.length := by
    simpa [digitsValue] using digitsValueFrom_lt rest 0 hs
  have hfast : atoiFastLoop 0 rest = .ok (digitsValue rest : Int) := by
    have := atoiFastLoop_eq rest 0
    rw [hs] at this
    simpa [digitsValue] using this
  have hpos : 0 < rest.length := List.length_pos.2 hne
  have e31 : (2 : Nat) ^ (32 - 1) = 2147483648 := by norm_num
  have e63 : (2 : Nat) ^ (64 - 1) = 9223372036854775808 := by norm_num
  unfold Atoi
  by_cases hcond : (ws = .w32 ∧ 0 < (c :: cs).length ∧ (c :: cs).length < 10) ∨
      (ws = .w64 ∧ 0 < (c :: cs).length ∧ (c :: cs).length < 19)
  · have hbad : ¬ ((c = 45 ∨ c = 43) ∧ rest.length < 1) := by
      rintro ⟨_, h⟩
      omega
    have hsmall : digitsValue rest < 2 ^ (ws.bits - 1) := by
      rcases hcond with ⟨hw, _, hl⟩ | ⟨hw, _, hl⟩
      · subst hw
        have h9 : 10 ^ rest.length ≤ 10 ^ 9 := Nat.pow_le_pow_right (by norm_num) (by omega)
        simp only [WordSize.bits, e31]
        norm_num at h9
        omega
      · subst hw
        have h18 : 10 ^ rest.length ≤ 10 ^ 18 := Nat.pow_le_pow_right (by norm_num) (by omega)
        simp only [WordSize.bits, e63]
        norm_num at h18
        omega
    simp only [hcond, if_true, hrest2, hfast, hbad, if_false]
    by_cases hneg : c = 45
    · rw [if_pos hneg, if_pos hneg, if_pos (le_of_lt hsmall)]
    · rw [if_neg hneg, if_neg hneg, if_pos hsmall]
  · simp only [hcond, if_false]
    rw [ParseInt_signed ws c cs rest hrest hne hs]
    by_cases hneg : c = 45
    · simp only [if_pos hneg]
      by_cases hle : digitsValue rest ≤ 2 ^ (ws.bits - 1)
      · simp only [if_pos hle]
        cases ws
        · simp only [WordSize.bits, e31, wrapInt_32] at *
          exact congrArg Except.ok (by omega)
        · simp only [WordSize.bits, e63, wrapInt_64] at *
          exact congrArg Except.ok (by omega)
      · simp only [if_neg hle]
    · simp only [if_neg hneg]
      by_cases hlt2 : digitsValue rest < 2 ^ (ws.bits - 1)
      · simp only [if_pos hlt2]
        cases ws
        · simp only [WordSize.bits, e31, wrapInt_32] at *
          exact congrArg Except.ok (by omega)
        · simp only [WordSize.bits, e63, wrapInt_64] at *
          exact congrArg Except.ok (by omega)
      · simp only [if_neg hlt2]

/-- On a text in decimal notation `Atoi` returns the denoted integer when it
fits `int`, and a range error otherwise. -/
theorem Atoi_decimal_some (ws : WordSize) (s : GoString) (v : Int)
    (h : decimalValue s = some v) :
    Atoi ws s =
      if minInt ws.bits ≤ v ∧ v ≤ maxInt ws.bits then .ok v else .error .range := by
  have hp : (0 : Int) < 2 ^ (ws.bits - 1) := by positivity
  have hcast : ((2 ^ (ws.bits - 1) : Nat) : Int) = 2 ^ (ws.bits - 1) := by push_cast; rfl
  cases s with
  | nil => simp [decimalValue] at h
  | cons c cs =>
    simp only [decimalValue] at h
    by_cases h45 : c = 45
    · rw [if_pos h45] at h
      split_ifs at h with hd
      have hv : v = -(digitsValue cs : Int) := by injection h with h; exact h.symm
      have hrest : cs = if c = 43 ∨ c = 45 then cs else c :: cs := by simp [h45]
      rw [Atoi_signed ws c cs cs hrest hd.1 hd.2, if_pos h45, hv]
      simp only [minInt, maxInt]
      by_cases hle : digitsValue cs ≤ 2 ^ (ws.bits - 1)
      · have : ((digitsValue cs : Nat) : Int) ≤ 2 ^ (ws.bits - 1) := by
          rw [← hcast]; exact_mod_cast hle
        rw [if_pos hle, if_pos ⟨by omega, by omega⟩]
      · have : ¬ ((digitsValue cs : Nat) : Int) ≤ 2 ^ (ws.bits - 1) := by
          rw [← hcast]; exact_mod_cast hle
        rw [if_neg hle, if_neg (by omega)]
    · rw [if_neg h45] at h
      have key : ∀ rest : GoString, rest = (if c = 43 ∨ c = 45 then cs else c :: cs) →
          rest ≠ [] → allDigits rest = true → v = (digitsValue rest : Int) →
          Atoi ws (c :: cs) =
            if minInt ws.bits ≤ v ∧ v ≤ maxInt ws.bits then .ok v else .error .range := by
        intro rest hrest hne hs hv
        rw [Atoi_signed ws c cs rest hrest hne hs, if_neg h45, hv]
        simp only [minInt, maxInt]
        by_cases hlt : digitsValue rest < 2 ^ (ws.bits - 1)
        · have : ((digitsValue rest : Nat) : Int) < 2 ^ (ws.bits - 1) := by
            rw [← hcast]; exact_mod_cast hlt
          rw [if_pos hlt, if_pos ⟨by omega, by omega⟩]
        · have : ¬ ((digitsValue rest : Nat) : Int) < 2 ^ (ws.bits - 1) := by
            rw [← hcast]; exact_mod_cast hlt
          rw [if_neg hlt, if_neg (by omega)]
      by_cases h43 : c = 43
      · rw [if_pos h43] at h
        split_ifs at h with hd
        have hv : v = (digitsValue cs : Int) := by injection h with h; exact h.symm
        exact key cs (by simp [h43]) hd.1 hd.2 hv
      · rw [if_neg h43] at h
        split_ifs at h with hd
        have hv : v = (digitsValue (c :: cs) : Int) := by injection h with h; exact h.symm
        exact key (c :: cs) (by simp [h43, h45]) (by simp) hd hv

/-- On a text that is not in decimal notation `Atoi` returns an error. -/
theorem Atoi_decimal_none (ws : WordSize) (s : GoString) (h : decimalValue s = none) :
    ∃ e, Atoi ws s = .error e := by
  cases s with
  | nil =>
    refine ⟨.syn, ?_⟩
    cases ws <;> rfl
  | cons c cs =>
    -- the text after the sign is empty or holds a byte that is no digit
    have hbad : ∀ rest : GoString, rest = (if c = 43 ∨ c = 45 then cs else c :: cs) →
        (rest = [] ∨ allDigits rest = false) → ∃ e, Atoi ws (c :: cs) = .error e := by
      intro rest hrest hr
      have hrest2 : (if c = 45 ∨ c = 43 then cs else c :: cs) = rest := by
        rw [hrest]
        by_cases h1 : c = 45 <;> by_cases h2 : c = 43 <;> simp [h1, h2]
      unfold Atoi
      by_cases hcond : (ws = .w32 ∧ 0 < (c :: cs).length ∧ (c :: cs).length < 10) ∨
          (ws = .w64 ∧ 0 < (c :: cs).length ∧ (c :: cs).length < 19)
      · simp only [hcond, if_true, hrest2]
        by_cases hb : (c = 45 ∨ c = 43) ∧ rest.length < 1
        · rw [if_pos hb]
          exact ⟨_, rfl⟩
        · rw [if_neg hb]
          have hnd : allDigits rest = false := by
            rcases hr with hr | hr
            · exfalso
              apply hb
              subst hr
              constructor
              · by_contra hc
                have : (if c = 45 ∨ c = 43 then cs else c :: cs) = c :: cs := if_neg hc
                rw [this] at hrest2
                exact List.cons_ne_nil _ _ hrest2
              · simp
            · exact hr
          have := atoiFastLoop_eq rest 0
          rw [hnd] at this
          simp only [Nat.cast_zero, Bool.false_eq_true, if_false] at this
          rw [this]
          exact ⟨_, rfl⟩
      · simp only [hcond, if_false]
        have hU : ∃ e, ParseUint rest ws.bits = .error e := by
          rcases hr with hr | hr
          · exact ⟨.syn, by rw [hr]; exact ParseUint_nil _⟩
          · exact ParseUint_nondigits _ _ hr
        obtain ⟨e, he⟩ := hU
        rw [hrest] at he
        obtain ⟨e1, he1⟩ := ParseInt_error ws c cs e he
        rw [he1]
        exact ⟨_, rfl⟩
    simp only [decimalValue] at h
    by_cases h45 : c = 45
    · rw [if_pos h45] at h
      split_ifs at h with hd
      refine hbad cs (by simp [h45]) ?_
      by_cases hne : cs = []
      · exact Or.inl hne
      · right
        by_contra hc
        exact hd ⟨hne, by simpa using hc⟩
    · rw [if_neg h45] at h
      by_cases h43 : c = 43
      · rw [if_pos h43] at h
        split_ifs at h with hd
        refine hbad cs (by simp [h43]) ?_
        by_cases hne : cs = []
        · exact Or.inl hne
        · right
          by_contra hc
          exact hd ⟨hne, by simpa using hc⟩
      · rw [if_neg h43] at h
        split_ifs at h with hd
        refine hbad (c :: cs) (by simp [h43, h45]) (Or.inr ?_)
        simpa using hd

/-- A value `Atoi` returns lies in the range of `int`. -/
theorem Atoi_range (ws : WordSize) (s : GoString) (v : Int) (h : Atoi ws s = .ok v) :
    minInt ws.bits ≤ v ∧ v ≤ maxInt ws.bits := by
  cases hd : decimalValue s with
  | none =>
    obtain ⟨e, he⟩ := Atoi_decimal_none ws s hd
    rw [he] at h
    cases h
  | some u =>
    rw [Atoi_decimal_some ws s u hd] at h
    split_ifs at h with hr
    injection h with h
    rw [← h]
    exact hr

/-! ## Facts about the loop of `compute` -/

theorem loopRun_exit {F : Type} (ops : Float64Ops F) (h : F) (st : LoopState F)
    (hst : ¬ st.i < steps) : loopRun ops h st = st := by
  rw [loopRun, if_neg hst]

theorem loopRun_step {F : Type} (ops : Float64Ops F) (h : F) (st : LoopState F)
    (hst : st.i < steps) : loopRun ops h st = loopRun ops h (loopBody ops h st) := by
  rw [loopRun, if_pos hst]

theorem loopBody_i {F : Type} (ops : Float64Ops F) (h : F) (st : LoopState F) :
    (loopBody ops h st).i = st.i + 1 := rfl

/-- From a state with `k` iterations to go, the loop is `k` passes of its body. -/
theorem loopRun_iterate {F : Type} (ops : Float64Ops F) (h : F) (k : Nat)
    (st : LoopState F) (hk : st.i + k = steps) :
    loopRun ops h st = (loopBody ops h)^[k] st := by
  induction k generalizing st with
  | zero =>
    rw [loopRun_exit ops h st (by omega)]
    rfl
  | succ k ih =>
    rw [loopRun_step ops h st (by omega), Function.iterate_succ_apply]
    exact ih _ (by rw [loopBody_i]; omega)

/-- After `k` passes from the initial state the counter is `k` and the
accumulator is the left-to-right sum of the first `k` terms. -/
theorem iterate_loopBody {F : Type} (ops : Float64Ops F) (h : F) (k : Nat) :
    (loopBody ops h)^[k] ⟨0, ops.zero⟩ =
      ⟨k, (List.range k).foldl
        (fun s i => ops.add s (ops.sin (samplePoint ops h i))) ops.zero⟩ := by
  induction k with
  | zero => rfl
  | succ k ih =>
    rw [Function.iterate_succ_apply', ih, List.range_succ, List.foldl_append]
    rfl

theorem compute_eq_foldl {F : Type} (ops : Float64Ops F) (n : Int) :
    compute ops n =
      ops.mul ((List.range steps).foldl
        (fun s i => ops.add s (ops.sin (samplePoint ops (stepWidth ops n) i))) ops.zero)
        (stepWidth ops n) := by
  have hdef : compute ops n =
      ops.mul (loopRun ops (stepWidth ops n) ⟨0, ops.zero⟩).s (stepWidth ops n) := rfl
  rw [hdef, loopRun_iterate ops _ steps ⟨0, ops.zero⟩ (Nat.zero_add _), iterate_loopBody]

theorem foldl_real_eq_sum (h : ℝ) (k : Nat) :
    (List.range k).foldl
        (fun s i => realOps.add s (realOps.sin (samplePoint realOps h i))) realOps.zero =
      ∑ i in Finset.range k, Real.sin (((i : ℝ) + 1 / 2) * h) := by
  induction k with
  | zero => simp [realOps]
  | succ k ih =>
    rw [List.range_succ, List.foldl_append, ih, Finset.sum_range_succ]
    simp [realOps, samplePoint]

/-- In exact arithmetic `compute n` is the midpoint sum times the step width. -/
theorem compute_real_eq_sum (n : Int) :
    compute realOps n =
      (∑ i in Finset.range 200000, Real.sin (((i : ℝ) + 1 / 2) * ((n : ℝ) / 200000))) *
        ((n : ℝ) / 200000) := by
  rw [compute_eq_foldl, foldl_real_eq_sum]
  simp [realOps, stepWidth, steps]

/-! ## Real analysis of the midpoint sum -/

/-- The midpoint sum of `k` terms has absolute value at most `k`. -/
theorem abs_midpoint_sum_le (h : ℝ) (k : Nat) :
    |∑ i in Finset.range k, Real.sin (((i : ℝ) + 1 / 2) * h)| ≤ k := by
  calc |∑ i in Finset.range k, Real.sin (((i : ℝ) + 1 / 2) * h)|
      ≤ ∑ i in Finset.range k, |Real.sin (((i : ℝ) + 1 / 2) * h)| :=
        Finset.abs_sum_le_sum_abs _ _
    _ ≤ ∑ _i in Finset.range k, (1 : ℝ) :=
        Finset.sum_le_sum (fun i _ => Real.abs_sin_le_one _)
    _ = k := by simp

/-- Telescoping of the midpoint sum of the sine. -/
theorem midpoint_sum_telescope (h : ℝ) (k : Nat) :
    (∑ i in Finset.range k, Real.sin (((i : ℝ) + 1 / 2) * h)) * (2 * Real.sin (h / 2)) =
      1 - Real.cos ((k : ℝ) * h) := by
  induction k with
  | zero => simp
  | succ k ih =>
    rw [Finset.sum_range_succ, add_mul, ih]
    have hc := Real.cos_sub_cos ((k : ℝ) * h) (((k + 1 : Nat) : ℝ) * h)
    have e1 : ((k : ℝ) * h + ((k + 1 : Nat) : ℝ) * h) / 2 = ((k : ℝ) + 1 / 2) * h := by
      push_cast; ring
    have e2 : ((k : ℝ) * h - ((k + 1 : Nat) : ℝ) * h) / 2 = -(h / 2) := by
      push_cast; ring
    rw [e1, e2, Real.sin_neg] at hc
    linarith

theorem monotone_sin_sub_add_cube :
    Monotone (fun x : ℝ => Real.sin x - x + x ^ 3 / 6) := by
  have hd : ∀ x : ℝ, HasDerivAt (fun x : ℝ => Real.sin x - x + x ^ 3 / 6)
      (Real.cos x - 1 + 3 * x ^ 2 / 6) x := by
    intro x
    have h1 := ((Real.hasDerivAt_sin x).sub (hasDerivAt_id x)).add
      ((hasDerivAt_pow 3 x).div_const 6)
    convert h1 using 1
  apply monotone_of_deriv_nonneg (fun x => (hd x).differentiableAt)
  intro x
  rw [(hd x).deriv]
  have := @Real.one_sub_sq_div_two_le_cos x
  linarith

theorem sub_cube_le_sin (x : ℝ) (hx : 0 ≤ x) : x - x ^ 3 / 6 ≤ Real.sin x := by
  have h := monotone_sin_sub_add_cube hx
  simp only [Real.sin_zero] at h
  norm_num at h
  linarith

theorem abs_sub_sin_le (u : ℝ) : |u - Real.sin u| ≤ |u| ^ 3 / 6 := by
  rcases le_total 0 u with hu | hu
  · have h1 := Real.sin_le hu
    have h2 := sub_cube_le_sin u hu
    rw [abs_of_nonneg (by linarith), abs_of_nonneg hu]
    linarith
  · have hu2 : 0 ≤ -u := by linarith
    have h1 := Real.sin_le hu2
    have h2 := sub_cube_le_sin (-u) hu2
    rw [Real.sin_neg] at h1 h2
    rw [abs_of_nonpos (by linarith), abs_of_nonpos hu]
    have e : (-u) ^ 3 = -(u ^ 3) := by ring
    rw [e] at h2 ⊢
    linarith

/-- Closed form of the midpoint sum: `compute n * sin (h/2) = h * sin (n/2) ^ 2`. -/
theorem compute_real_closed_form (n : Int) :
    compute realOps n * Real.sin ((n : ℝ) / 200000 / 2) =
      (n : ℝ) / 200000 * Real.sin ((n : ℝ) / 2) ^ 2 := by
  rw [compute_real_eq_sum]
  have ht := midpoint_sum_telescope ((n : ℝ) / 200000) 200000
  have e : ((200000 : Nat) : ℝ) * ((n : ℝ) / 200000) = 2 * ((n : ℝ) / 2) := by
    push_cast; ring
  rw [e] at ht
  have hs := Real.sin_sq_eq_half_sub ((n : ℝ) / 2)
  rw [hs]
  linear_combination ((n : ℝ) / 200000 / 2) * ht

/-- Error of the midpoint sum against the integral `1 - cos n`. -/
theorem compute_real_error (n : Int) :
    |compute realOps n - (1 - Real.cos (n : ℝ))| ≤ |(n : ℝ)| ^ 3 / (24 * 200000 ^ 2) := by
  rw [compute_real_eq_sum]
  have ht := midpoint_sum_telescope ((n : ℝ) / 200000) 200000
  have e : ((200000 : Nat) : ℝ) * ((n : ℝ) / 200000) = (n : ℝ) := by
    push_cast; field_simp
  rw [e] at ht
  rw [← ht, ← mul_sub, abs_mul]
  have hS := abs_midpoint_sum_le ((n : ℝ) / 200000) 200000
  have hu := abs_sub_sin_le ((n : ℝ) / 200000 / 2)
  have e2 : (n : ℝ) / 200000 - 2 * Real.sin ((n : ℝ) / 200000 / 2) =
      2 * ((n : ℝ) / 200000 / 2 - Real.sin ((n : ℝ) / 200000 / 2)) := by ring
  have hT : |(n : ℝ) / 200000 - 2 * Real.sin ((n : ℝ) / 200000 / 2)| ≤
      |(n : ℝ)| ^ 3 / (24 * 200000 ^ 3) := by
    rw [e2, abs_mul, abs_of_pos (by norm_num : (0 : ℝ) < 2)]
    have e3 : |(n : ℝ) / 200000 / 2| = |(n : ℝ)| / 400000 := by
      rw [div_div, abs_div, abs_of_pos (by norm_num : (0 : ℝ) < 200000 * 2)]
      norm_num
    rw [e3] at hu
    calc 2 * |(n : ℝ) / 200000 / 2 - Real.sin ((n : ℝ) / 200000 / 2)|
        ≤ 2 * ((|(n : ℝ)| / 400000) ^ 3 / 6) := by linarith
      _ = |(n : ℝ)| ^ 3 / (24 * 200000 ^ 3) := by ring
  calc |∑ i in Finset.range 200000, Real.sin (((i : ℝ) + 1 / 2) * ((n : ℝ) / 200000))| *
        |(n : ℝ) / 200000 - 2 * Real.sin ((n : ℝ) / 200000 / 2)|
      ≤ ((200000 : Nat) : ℝ) * (|(n : ℝ)| ^ 3 / (24 * 200000 ^ 3)) :=
        mul_le_mul hS hT (abs_nonneg _) (Nat.cast_nonneg _)
    _ = |(n : ℝ)| ^ 3 / (24 * 200000 ^ 2) := by push_cast; ring

/-- In exact arithmetic `compute` is an even function of its argument. -/
theorem compute_real_neg (n : Int) : compute realOps (-n) = compute realOps n := by
  rw [compute_real_eq_sum, compute_real_eq_sum]
  have e : ∀ i : Nat, Real.sin (((i : ℝ) + 1 / 2) * (((-n : Int) : ℝ) / 200000)) =
      -Real.sin (((i : ℝ) + 1 / 2) * ((n : ℝ) / 200000)) := by
    intro i
    rw [← Real.sin_neg]
    congr 1
    push_cast
    ring
  simp only [e, Finset.sum_neg_distrib]
  push_cast
  ring

theorem compute_real_one_pos : 0 < compute realOps 1 := by
  rw [compute_real_eq_sum]
  apply mul_pos
  · apply Finset.sum_pos
    · intro i hi
      have hi2 : i < 200000 := Finset.mem_range.1 hi
      have hi3 : (i : ℝ) < 200000 := by exact_mod_cast hi2
      have hi0 : (0 : ℝ) ≤ (i : ℝ) := Nat.cast_nonneg i
      apply Real.sin_pos_of_pos_of_lt_pi
      · push_cast
        positivity
      · have hpi := Real.pi_gt_three
        have : ((i : ℝ) + 1 / 2) * (((1 : Int) : ℝ) / 200000) < 3 := by
          push_cast
          rw [← sub_pos]
          have : 3 - ((i : ℝ) + 1 / 2) * (1 / 200000) =
              (599999.5 - (i : ℝ)) / 200000 := by ring
          rw [this]
          apply div_pos _ (by norm_num)
          linarith
        linarith
    · exact ⟨0, Finset.mem_range.2 (by norm_num)⟩
  · push_cast
    norm_num

/-- Unary minus on `int`: the mathematical negation, except at the smallest
value, which it leaves in place. -/
theorem negInt_eq (ws : WordSize) (n : Int) (hlo : minInt ws.bits ≤ n)
    (hhi : n ≤ maxInt ws.bits) :
    negInt ws.bits n = if n = minInt ws.bits then n else -n := by
  cases ws
  · simp only [WordSize.bits, minInt, maxInt, negInt, wrapInt_32] at *
    norm_num at *
    split_ifs <;> omega
  · simp only [WordSize.bits, minInt, maxInt, negInt, wrapInt_64] at *
    norm_num at *
    split_ifs <;> omega

/-! ## Facts about the handlers -/

theorem resolveN_of_ok (ws : WordSize) (r : Request) (v : Int)
    (hne : qs r ≠ []) (hv : Atoi ws (qs r) = .ok v) :
    resolveN ws r = if v > 0 then v else 10 := by
  simp only [resolveN, if_pos hne, hv]

theorem resolveN_of_error (ws : WordSize) (r : Request) (e : NumErr)
    (he : Atoi ws (qs r) = .error e) : resolveN ws r = 10 := by
  simp only [resolveN, he]
  split_ifs <;> rfl

theorem resolveN_of_empty (ws : WordSize) (r : Request)
    (he : qs r = []) : resolveN ws r = 10 := by
  simp [resolveN, he]

/-- The resolved `n` is a positive `int`. -/
theorem resolveN_range (ws : WordSize) (r : Request) :
    0 < resolveN ws r ∧ resolveN ws r ≤ maxInt ws.bits := by
  have h10 : (10 : Int) ≤ maxInt ws.bits := by
    cases ws <;> simp only [maxInt, WordSize.bits] <;> norm_num
  by_cases hne : qs r = []
  · rw [resolveN_of_empty ws r hne]
    exact ⟨by norm_num, h10⟩
  · cases hA : Atoi ws (qs r) with
    | error e =>
      rw [resolveN_of_error ws r e hA]
      exact ⟨by norm_num, h10⟩
    | ok v =>
      rw [resolveN_of_ok ws r v hne hA]
      split_ifs with hv
      · exact ⟨hv, (Atoi_range ws _ v hA).2⟩
      · exact ⟨by norm_num, h10⟩

/-- Response of `computeHandler` for any interpretation of `float64`. -/
theorem serve_computeHandler {F : Type} (ops : Float64Ops F) (ws : WordSize) (clock : Clock)
    (r : Request) :
    serve (computeHandler ops ws clock) r =
      ⟨200, [("Content-Type", "application/json")],
        if ops.isFinite (compute ops (resolveN ws r)) then
          [.json ⟨resolveN ws r, compute ops (resolveN ws r), clock.tookMS⟩]
        else []⟩ := by
  unfold serve computeHandler ResponseWriter.encode
  by_cases hf : ops.isFinite (compute ops (resolveN ws r)) = true
  · simp only [hf, if_true]
    rfl
  · simp only [hf]
    rfl

theorem loopRun_real_s (h : ℝ) :
    (loopRun realOps h ⟨0, realOps.zero⟩).s =
      ∑ i in Finset.range 200000, Real.sin (((i : ℝ) + 1 / 2) * h) := by
  rw [loopRun_iterate realOps h steps ⟨0, realOps.zero⟩ (Nat.zero_add _), iterate_loopBody,
    foldl_real_eq_sum]
  simp only [steps]

/-! ## Magnitudes under the laws of rounding -/

theorem bound_stepWidth {F : Type} (ops : Float64Ops F) (bound : F → Nat → Prop)
    (hl : MagnitudeLaws ops bound) (n : Int) (e : Nat) (he17 : 17 ≤ e) (he : e ≤ 63)
    (hn : n.natAbs ≤ 2 ^ e) : bound (stepWidth ops n) (2 ^ (e - 17)) := by
  have h1 := hl.ofInt_bound n e he hn
  have h2 := hl.div_steps_bound _ e h1 he17
  simp only [stepWidth, steps, Nat.cast_ofNat]
  exact h2

theorem bound_samplePoint {F : Type} (ops : Float64Ops F) (bound : F → Nat → Prop)
    (hl : MagnitudeLaws ops bound) (h : F) (d : Nat) (hd : d ≤ 46) (hh : bound h (2 ^ d))
    (i : Nat) (hi : i < 200000) : bound (samplePoint ops h i) (2 ^ (19 + d)) := by
  have h1 : bound (ops.ofInt (i : Int)) (2 ^ 18) :=
    hl.ofInt_bound (i : Int) 18 (by norm_num) (by
      rw [Int.natAbs_ofNat]
      norm_num
      omega)
  have h2 : bound (ops.add (ops.ofInt (i : Int)) ops.half) (2 ^ 18 + 1) :=
    hl.add_bound _ _ (2 ^ 18) 1 h1 hl.half_bound (by norm_num)
  have h3 : bound (ops.add (ops.ofInt (i : Int)) ops.half) (2 ^ 19) :=
    hl.mono _ _ _ h2 (by norm_num)
  exact hl.mul_bound _ _ 19 d h3 hh (by omega)

/-- Every accumulated term is at most `1` in magnitude. -/
theorem bound_term {F : Type} (ops : Float64Ops F) (bound : F → Nat → Prop)
    (hl : MagnitudeLaws ops bound) (h : F) (d : Nat) (hd : d ≤ 46) (hh : bound h (2 ^ d))
    (i : Nat) (hi : i < 200000) : bound (ops.sin (samplePoint ops h i)) 1 :=
  hl.sin_bound _ _ (bound_samplePoint ops bound hl h d hd hh i hi)

theorem bound_foldl {F : Type} (ops : Float64Ops F) (bound : F → Nat → Prop)
    (hl : MagnitudeLaws ops bound) (h : F) (d : Nat) (hd : d ≤ 46) (hh : bound h (2 ^ d))
    (k : Nat) (hk : k ≤ 200000) :
    bound ((List.range k).foldl
      (fun s i => ops.add s (ops.sin (samplePoint ops h i))) ops.zero) k := by
  induction k with
  | zero => exact hl.zero_bound
  | succ k ih =>
    rw [List.range_succ, List.foldl_append]
    simp only [List.foldl_cons, List.foldl_nil]
    have hx := bound_term ops bound hl h d hd hh k (by omega)
    have h53 : (200001 : Nat) ≤ 2 ^ 53 := by norm_num
    exact hl.add_bound _ _ k 1 (ih (by omega)) hx (by omega)

/-- The accumulated sum is at most `200000` in magnitude. -/
theorem bound_loopRun {F : Type} (ops : Float64Ops F) (bound : F → Nat → Prop)
    (hl : MagnitudeLaws ops bound) (h : F) (d : Nat) (hd : d ≤ 46) (hh : bound h (2 ^ d)) :
    bound (loopRun ops h ⟨0, ops.zero⟩).s 200000 := by
  rw [loopRun_iterate ops h steps ⟨0, ops.zero⟩ (Nat.zero_add _), iterate_loopBody]
  have := bound_foldl ops bound hl h d hd hh 200000 (le_refl _)
  simpa only [steps] using this

/-- Under the laws of rounding the result of `compute` on an `n` with
`|n| ≤ 2^e` is at most `2^(e+1)` in magnitude. -/
theorem bound_compute {F : Type} (ops : Float64Ops F) (bound : F → Nat → Prop)
    (hl : MagnitudeLaws ops bound) (n : Int) (e : Nat) (he17 : 17 ≤ e) (he : e ≤ 63)
    (hn : n.natAbs ≤ 2 ^ e) : bound (compute ops n) (2 ^ (e + 1)) := by
  have hh := bound_stepWidth ops bound hl n e he17 he hn
  have hs := bound_loopRun ops bound hl (stepWidth ops n) (e - 17) (by omega) hh
  have hs2 : bound (loopRun ops (stepWidth ops n) ⟨0, ops.zero⟩).s (2 ^ 18) :=
    hl.mono _ _ _ hs (by norm_num)
  have hdef : compute ops n =
      ops.mul (loopRun ops (stepWidth ops n) ⟨0, ops.zero⟩).s (stepWidth ops n) := rfl
  have hm := hl.mul_bound _ _ 18 (e - 17) hs2 hh (by omega)
  have he1 : 18 + (e - 17) = e + 1 := by omega
  rw [he1] at hm
  rw [hdef]
  exact hm

/-- Under the laws of rounding `compute` of an `int` is neither NaN nor infinite. -/
theorem isFinite_compute {F : Type} (ops : Float64Ops F) (bound : F → Nat → Prop)
    (hl : MagnitudeLaws ops bound) (n : Int) (hn : n.natAbs ≤ 2 ^ 63) :
    ops.isFinite (compute ops n) = true :=
  hl.finite_of_bound _ _ (bound_compute ops bound hl n 63 (by norm_num) (le_refl _) hn)
    (Nat.pow_le_pow_right (by norm_num) (by norm_num))

/-- The resolved `n` is a value of `int`, so `|n| ≤ 2^63`. -/
theorem resolveN_natAbs (ws : WordSize) (r : Request) : (resolveN ws r).natAbs ≤ 2 ^ 63 := by
  have h := resolveN_range ws r
  have hm : maxInt ws.bits ≤ 2 ^ 63 := by
    cases ws <;> simp only [maxInt, WordSize.bits] <;> norm_num
  have h63 : ((2 ^ 63 : Nat) : Int) = 2 ^ 63 := by norm_num
  omega

/-- Exact real arithmetic satisfies the laws of rounding. -/
theorem realOps_magnitudeLaws : MagnitudeLaws realOps realBound where
  finite_of_bound := by
    intro x k hb hk
    have h1 : realOps.isFinite x = decide (|x| ≤ maxFloat64) := rfl
    rw [h1, decide_eq_true_eq]
    have h2 : ((k : Nat) : ℝ) ≤ ((2 ^ 1023 : Nat) : ℝ) := by exact_mod_cast hk
    have h3 : ((2 ^ 1023 : Nat) : ℝ) ≤ maxFloat64 := by
      unfold maxFloat64
      push_cast
      have e : (2 : ℝ) ^ 1023 = 2 ^ 52 * 2 ^ 971 := by rw [← pow_add]
      rw [e]
      apply mul_le_mul_of_nonneg_right _ (by positivity)
      norm_num
    exact le_trans hb (le_trans h2 h3)
  mono := by
    intro x k m hb hkm
    have : ((k : Nat) : ℝ) ≤ (m : ℝ) := by exact_mod_cast hkm
    exact le_trans hb this
  ofInt_bound := by
    intro n e _ hn
    show |((n : Int) : ℝ)| ≤ ((2 ^ e : Nat) : ℝ)
    have h1 : |((n : Int) : ℝ)| = ((n.natAbs : Nat) : ℝ) := by
      rw [Nat.cast_natAbs, Int.cast_abs]
    rw [h1]
    exact_mod_cast hn
  zero_bound := by
    show |(0 : ℝ)| ≤ ((0 : Nat) : ℝ)
    simp
  half_bound := by
    show |(1 / 2 : ℝ)| ≤ ((1 : Nat) : ℝ)
    rw [abs_of_pos (by norm_num)]
    norm_num
  add_bound := by
    intro x y k m hx hy _
    show |x + y| ≤ ((k + m : Nat) : ℝ)
    push_cast
    exact le_trans (abs_add x y) (add_le_add hx hy)
  mul_bound := by
    intro x y a b hx hy _
    show |x * y| ≤ ((2 ^ (a + b) : Nat) : ℝ)
    have hx2 : |x| ≤ (2 : ℝ) ^ a := by
      have : |x| ≤ ((2 ^ a : Nat) : ℝ) := hx
      exact_mod_cast this
    have hy2 : |y| ≤ (2 : ℝ) ^ b := by
      have : |y| ≤ ((2 ^ b : Nat) : ℝ) := hy
      exact_mod_cast this
    rw [abs_mul, pow_add]
    push_cast
    exact mul_le_mul hx2 hy2 (abs_nonneg _) (by positivity)
  div_steps_bound := by
    intro x a hx ha
    show |x / ((200000 : Int) : ℝ)| ≤ ((2 ^ (a - 17) : Nat) : ℝ)
    have hx2 : |x| ≤ (2 : ℝ) ^ a := by
      have : |x| ≤ ((2 ^ a : Nat) : ℝ) := hx
      exact_mod_cast this
    have e : (2 : ℝ) ^ a = 2 ^ (a - 17) * 2 ^ 17 := by
      rw [← pow_add]
      congr 1
      omega
    rw [abs_div]
    push_cast
    rw [abs_of_pos (by norm_num : (0 : ℝ) < 200000), div_le_iff₀ (by norm_num)]
    have hp : (0 : ℝ) ≤ 2 ^ (a - 17) := by positivity
    calc |x| ≤ 2 ^ (a - 17) * 2 ^ 17 := by rw [← e]; exact hx2
      _ ≤ 2 ^ (a - 17) * 200000 := mul_le_mul_of_nonneg_left (by norm_num) hp
  sin_bound := by
    intro x k _
    show |Real.sin x| ≤ ((1 : Nat) : ℝ)
    simpa using Real.abs_sin_le_one x

/-! ## The claims -/

/-- C1: query-parameter resolution in `computeHandler`.  The resolved `n` is `v`
when the text `qs` is non-empty, `Atoi` parses it without error to `v`, and
`v > 0`; it is `10` when the parameter is absent, when `qs` is empty, when `Atoi`
returns an error, and when the parsed value is at most `0`.  In terms of decimal
notation: a text that denotes no integer, one that denotes an integer outside the
range of `int`, and one that denotes an integer `≤ 0` all resolve to `10`, and a
text denoting `v` with `0 < v ≤ maxInt` resolves to `v`.  The texts `5`, `abc`,
`-3`, `0` and the request without query resolve to `5`, `10`, `10`, `10`, `10`;
of several values of the parameter the first one counts. -/
theorem resolveN_spec (ws : WordSize) (r : Request) :
    (∀ v : Int, qs r ≠ [] → Atoi ws (qs r) = .ok v → 0 < v → resolveN ws r = v) ∧
    (r.query (goStr "n") = [] → resolveN ws r = 10) ∧
    (qs r = [] → resolveN ws r = 10) ∧
    (∀ e : NumErr, Atoi ws (qs r) = .error e → resolveN ws r = 10) ∧
    (∀ v : Int, Atoi ws (qs r) = .ok v → v ≤ 0 → resolveN ws r = 10) ∧
    (decimalValue (qs r) = none → resolveN ws r = 10) ∧
    (∀ v : Int, decimalValue (qs r) = some v →
      (v < minInt ws.bits ∨ maxInt ws.bits < v) → resolveN ws r = 10) ∧
    (∀ v : Int, decimalValue (qs r) = some v → v ≤ 0 → resolveN ws r = 10) ∧
    (∀ v : Int, decimalValue (qs r) = some v → 0 < v → v ≤ maxInt ws.bits →
      resolveN ws r = v) ∧
    resolveN ws (getRequest [("n", "5")]) = 5 ∧
    resolveN ws (getRequest [("n", "abc")]) = 10 ∧
    resolveN ws (getRequest [("n", "-3")]) = 10 ∧
    resolveN ws (getRequest [("n", "0")]) = 10 ∧
    resolveN ws (getRequest []) = 10 ∧
    resolveN ws (getRequest [("n", "7"), ("n", "abc")]) = 7 := by
  have hErr : ∀ e : NumErr, Atoi ws (qs r) = .error e → resolveN ws r = 10 :=
    fun e he => resolveN_of_error ws r e he
  have hNonpos : ∀ v : Int, Atoi ws (qs r) = .ok v → v ≤ 0 → resolveN ws r = 10 := by
    intro v hv hle
    by_cases hne : qs r = []
    · exact resolveN_of_empty ws r hne
    · rw [resolveN_of_ok ws r v hne hv, if_neg (by omega)]
  have hPos : ∀ v : Int, qs r ≠ [] → Atoi ws (qs r) = .ok v → 0 < v → resolveN ws r = v := by
    intro v hne hv hpos
    rw [resolveN_of_ok ws r v hne hv, if_pos hpos]
  refine ⟨hPos, ?_, resolveN_of_empty ws r, hErr, hNonpos, ?_, ?_, ?_, ?_, ?_, ?_, ?_, ?_, ?_,
    ?_⟩
  · intro h
    apply resolveN_of_empty
    simp [qs, Values.Get, h]
  · intro h
    obtain ⟨e, he⟩ := Atoi_decimal_none ws _ h
    exact hErr e he
  · intro v hv hout
    have hA := Atoi_decimal_some ws _ v hv
    rw [if_neg (by omega)] at hA
    exact hErr _ hA
  · intro v hv hle
    have hA := Atoi_decimal_some ws _ v hv
    split_ifs at hA
    · exact hNonpos v hA hle
    · exact hErr _ hA
  · intro v hv hpos hmax
    have hA := Atoi_decimal_some ws _ v hv
    have hmin : minInt ws.bits ≤ v := by
      have : minInt ws.bits ≤ 0 := by
        have hp : (0 : Int) < 2 ^ (ws.bits - 1) := by positivity
        simp only [minInt]
        omega
      omega
    rw [if_pos ⟨hmin, hmax⟩] at hA
    have hne : qs r ≠ [] := by
      intro h0
      rw [h0] at hv
      simp [decimalValue] at hv
    exact hPos v hne hA hpos
  · cases ws <;> decide
  · cases ws <;> decide
  · cases ws <;> decide
  · cases ws <;> decide
  · cases ws <;> decide
  · cases ws <;> decide

/-- Witness of C1 on a 64-bit target: the query `n=5` resolves to `5`. -/
theorem resolveN_spec_witness :
    qs (getRequest [("n", "5")]) ≠ [] ∧
    Atoi .w64 (qs (getRequest [("n", "5")])) = .ok 5 ∧
    resolveN .w64 (getRequest [("n", "5")]) = 5 :=
  have hne : qs (getRequest [("n", "5")]) ≠ [] := by decide
  have hv : Atoi .w64 (qs (getRequest [("n", "5")])) = .ok 5 := by decide
  ⟨hne, hv, (resolveN_spec .w64 (getRequest [("n", "5")])).1 5 hne hv (by decide)⟩


/-- C2: for every request, whatever its query, the response of `computeHandler`
has status 200 and `Content-Type: application/json`, and its body is the JSON
document of `computeResp` with `input` the resolved `n` (not the query text)
and `result` equal to `compute` at the resolved `n`; no request yields another
status.  This holds for every interpretation of `float64` that satisfies the
laws of rounding `MagnitudeLaws`, under which the encoder never meets a NaN or
an infinity.  Without query, and for the queries `abc`, `-3` and `0`, `input`
is 10 and `result` is `compute 10`; for the query `5` they are 5 and
`compute 5`.  With no law assumed, status and header are the same, and the body
is that document when the result is finite and empty when it is not. -/
theorem computeHandler_response {F : Type} (ops : Float64Ops F) (bound : F → Nat → Prop)
    (hl : MagnitudeLaws ops bound) (ws : WordSize) (clock : Clock) (r : Request) :
    serve (computeHandler ops ws clock) r =
      ⟨200, [("Content-Type", "application/json")],
        [.json ⟨resolveN ws r, compute ops (resolveN ws r), clock.tookMS⟩]⟩ ∧
    (serve (computeHandler ops ws clock) r).status = 200 ∧
    (serve (computeHandler ops ws clock) r).headerGet "Content-Type" =
      some "application/json" ∧
    serve (computeHandler ops ws clock) (getRequest []) =
      ⟨200, [("Content-Type", "application/json")],
        [.json ⟨10, compute ops 10, clock.tookMS⟩]⟩ ∧
    serve (computeHandler ops ws clock) (getRequest [("n", "5")]) =
      ⟨200, [("Content-Type", "application/json")],
        [.json ⟨5, compute ops 5, clock.tookMS⟩]⟩ ∧
    serve (computeHandler ops ws clock) (getRequest [("n", "abc")]) =
      ⟨200, [("Content-Type", "application/json")],
        [.json ⟨10, compute ops 10, clock.tookMS⟩]⟩ ∧
    serve (computeHandler ops ws clock) (getRequest [("n", "-3")]) =
      ⟨200, [("Content-Type", "application/json")],
        [.json ⟨10, compute ops 10, clock.tookMS⟩]⟩ ∧
    serve (computeHandler ops ws clock) (getRequest [("n", "0")]) =
      ⟨200, [("Content-Type", "application/json")],
        [.json ⟨10, compute ops 10, clock.tookMS⟩]⟩ ∧
    (∀ (G : Type) (ops2 : Float64Ops G),
      (serve (computeHandler ops2 ws clock) r).status = 200 ∧
      (serve (computeHandler ops2 ws clock) r).header =
        [("Content-Type", "application/json")] ∧
      (ops2.isFinite (compute ops2 (resolveN ws r)) = true →
        (serve (computeHandler ops2 ws clock) r).body =
          [.json ⟨resolveN ws r, compute ops2 (resolveN ws r), clock.tookMS⟩]) ∧
      (ops2.isFinite (compute ops2 (resolveN ws r)) = false →
        (serve (computeHandler ops2 ws clock) r).body = [])) := by
  have hgen : ∀ q : Request, serve (computeHandler ops ws clock) q =
      ⟨200, [("Content-Type", "application/json")],
        [.json ⟨resolveN ws q, compute ops (resolveN ws q), clock.tookMS⟩]⟩ := by
    intro q
    rw [serve_computeHandler,
      isFinite_compute ops bound hl (resolveN ws q) (resolveN_natAbs ws q)]
    rfl
  have h10 : resolveN ws (getRequest []) = 10 := by cases ws <;> decide
  have h5 : resolveN ws (getRequest [("n", "5")]) = 5 := by cases ws <;> decide
  have habc : resolveN ws (getRequest [("n", "abc")]) = 10 := by cases ws <;> decide
  have hm3 : resolveN ws (getRequest [("n", "-3")]) = 10 := by cases ws <;> decide
  have h0 : resolveN ws (getRequest [("n", "0")]) = 10 := by cases ws <;> decide
  refine ⟨hgen r, ?_, ?_, ?_, ?_, ?_, ?_, ?_, ?_⟩
  · rw [hgen r]
  · rw [hgen r]
    rfl
  · rw [hgen (getRequest []), h10]
  · rw [hgen (getRequest [("n", "5")]), h5]
  · rw [hgen (getRequest [("n", "abc")]), habc]
  · rw [hgen (getRequest [("n", "-3")]), hm3]
  · rw [hgen (getRequest [("n", "0")]), h0]
  · intro G ops2
    rw [serve_computeHandler]
    refine ⟨rfl, rfl, ?_, ?_⟩
    · intro hf
      simp only [hf, if_true]
    · intro hf
      simp only [hf]
      rfl

/-- Witness of C2: exact real arithmetic satisfies the laws of rounding, and the
query `n=5` on a 64-bit target is answered with `input` 5 and `result`
`compute 5`. -/
theorem computeHandler_response_witness :
    MagnitudeLaws realOps realBound ∧
    serve (computeHandler realOps .w64 ⟨0, 3000000⟩) (getRequest [("n", "5")]) =
      ⟨200, [("Content-Type", "application/json")],
        [.json ⟨5, compute realOps 5, Clock.tookMS ⟨0, 3000000⟩⟩]⟩ :=
  ⟨realOps_magnitudeLaws,
    (computeHandler_response realOps realBound realOps_magnitudeLaws .w64 ⟨0, 3000000⟩
      (getRequest [("n", "5")])).2.2.2.2.1⟩

/-- C3: for every request (any method, headers, query and body), `healthHandler`
produces status 200, the header `Content-Type: application/json` and exactly the
15 bytes of the literal with the one key `status` and the value `ok`; the
response is the same for every request. -/
theorem healthHandler_response (F : Type) (r : Request) :
    serve (@healthHandler F) r =
      ⟨200, [("Content-Type", "application/json")], [.raw healthBody]⟩ ∧
    (serve (@healthHandler F) r).headerGet "Content-Type" = some "application/json" ∧
    healthBody = [123, 34, 115, 116, 97, 116, 117, 115, 34, 58, 34, 111, 107, 34, 125] ∧
    healthBody.length = 15 ∧
    (∀ r2 : Request, serve (@healthHandler F) r2 = serve (@healthHandler F) r) := by
  refine ⟨rfl, rfl, by decide, by decide, fun r2 => rfl⟩

/-- C4: for every integer `n`, and every interpretation of the `float64`
operations, `compute n` is the product, taken once at the end, of the step width
`h = n / 200000` with the sum of `sin ((i + 0.5) * h)` accumulated from `0.0`
for `i = 0, 1, ..., 199999` in that order; the loop is exactly 200000 passes of
its body whatever `n` is, the guard `i < steps` holding before each of them and
failing after the last.  In exact arithmetic this is the midpoint Riemann sum
`h * Σ_{i < 200000} sin ((i + 1/2) * h)`. -/
theorem compute_riemann_sum {F : Type} (ops : Float64Ops F) (n : Int) :
    compute ops n =
      ops.mul ((List.range 200000).foldl
        (fun (s : F) (i : Nat) =>
          ops.add s (ops.sin (ops.mul (ops.add (ops.ofInt (i : Int)) ops.half)
            (ops.div (ops.ofInt n) (ops.ofInt 200000))))) ops.zero)
        (ops.div (ops.ofInt n) (ops.ofInt 200000)) ∧
    loopRun ops (stepWidth ops n) ⟨0, ops.zero⟩ =
      (loopBody ops (stepWidth ops n))^[200000] ⟨0, ops.zero⟩ ∧
    (∀ k : Nat, k < 200000 →
      ((loopBody ops (stepWidth ops n))^[k] ⟨0, ops.zero⟩).i < steps) ∧
    ¬ ((loopBody ops (stepWidth ops n))^[200000] ⟨0, ops.zero⟩).i < steps ∧
    compute realOps n =
      ((n : ℝ) / 200000) *
        ∑ i in Finset.range 200000, Real.sin (((i : ℝ) + 1 / 2) * ((n : ℝ) / 200000)) := by
  refine ⟨?_, ?_, ?_, ?_, ?_⟩
  · rw [compute_eq_foldl]
    simp only [steps, stepWidth, samplePoint, Nat.cast_ofNat]
  · have := loopRun_iterate ops (stepWidth ops n) steps ⟨0, ops.zero⟩ (Nat.zero_add _)
    simpa only [steps] using this
  · intro k hk
    rw [iterate_loopBody]
    simpa only [steps] using hk
  · rw [iterate_loopBody]
    simp only [steps]
    omega
  · rw [compute_real_eq_sum, mul_comm]

/-- C5: `compute 0` returns `0.0`.  For every interpretation of `float64` in
which `0 / 200000 = 0`, `(i + 0.5) * 0 = 0` for the 200000 indices, `sin 0 = 0`,
`0 + 0 = 0` and `0 * 0 = 0`: the step width is `0`, every sample point is `0`,
every accumulated term is `0`, the accumulator stays `0`, and the final product
is `0`. -/
theorem compute_zero {F : Type} (ops : Float64Ops F)
    (hdiv : ops.div (ops.ofInt 0) (ops.ofInt 200000) = ops.zero)
    (hmul : ∀ i : Nat, i < 200000 →
      ops.mul (ops.add (ops.ofInt (i : Int)) ops.half) ops.zero = ops.zero)
    (hsin : ops.sin ops.zero = ops.zero)
    (hadd : ops.add ops.zero ops.zero = ops.zero)
    (hmul0 : ops.mul ops.zero ops.zero = ops.zero) :
    stepWidth ops 0 = ops.zero ∧
    (∀ i : Nat, i < 200000 → samplePoint ops (stepWidth ops 0) i = ops.zero) ∧
    (∀ i : Nat, i < 200000 → ops.sin (samplePoint ops (stepWidth ops 0) i) = ops.zero) ∧
    (∀ k : Nat, k ≤ 200000 →
      (loopBody ops (stepWidth ops 0))^[k] ⟨0, ops.zero⟩ = ⟨k, ops.zero⟩) ∧
    compute ops 0 = ops.zero := by
  have hh : stepWidth ops 0 = ops.zero := by
    simp only [stepWidth, steps, Nat.cast_ofNat]
    exact hdiv
  have hx : ∀ i : Nat, i < 200000 → samplePoint ops (stepWidth ops 0) i = ops.zero := by
    intro i hi
    rw [hh]
    exact hmul i hi
  have hit : ∀ k : Nat, k ≤ 200000 →
      (loopBody ops (stepWidth ops 0))^[k] ⟨0, ops.zero⟩ = ⟨k, ops.zero⟩ := by
    intro k
    induction k with
    | zero => intro _; rfl
    | succ k ih =>
      intro hk
      rw [Function.iterate_succ_apply', ih (by omega)]
      have hb : loopBody ops (stepWidth ops 0) ⟨k, ops.zero⟩ =
          ⟨k + 1, ops.add ops.zero (ops.sin (samplePoint ops (stepWidth ops 0) k))⟩ := rfl
      rw [hb, hx k (by omega), hsin, hadd]
  refine ⟨hh, hx, ?_, hit, ?_⟩
  · intro i hi
    rw [hx i hi, hsin]
  · have hdef : compute ops 0 =
        ops.mul (loopRun ops (stepWidth ops 0) ⟨0, ops.zero⟩).s (stepWidth ops 0) := rfl
    rw [hdef, loopRun_iterate ops _ steps ⟨0, ops.zero⟩ (Nat.zero_add _),
      hit steps (by simp only [steps]; omega), hh]
    exact hmul0

/-- Witness of C5: exact real arithmetic satisfies the five laws, and there
`compute 0 = 0`. -/
theorem compute_zero_witness :
    realOps.div (realOps.ofInt 0) (realOps.ofInt 200000) = realOps.zero ∧
    (∀ i : Nat, i < 200000 →
      realOps.mul (realOps.add (realOps.ofInt (i : Int)) realOps.half) realOps.zero =
        realOps.zero) ∧
    realOps.sin realOps.zero = realOps.zero ∧
    realOps.add realOps.zero realOps.zero = realOps.zero ∧
    realOps.mul realOps.zero realOps.zero = realOps.zero ∧
    compute realOps 0 = (0 : ℝ) :=
  have hdiv : realOps.div (realOps.ofInt 0) (realOps.ofInt 200000) = realOps.zero := by
    simp [realOps]
  have hmul : ∀ i : Nat, i < 200000 →
      realOps.mul (realOps.add (realOps.ofInt (i : Int)) realOps.half) realOps.zero =
        realOps.zero := by
    intro i _
    simp [realOps]
  have hsin : realOps.sin realOps.zero = realOps.zero := by simp [realOps]
  have hadd : realOps.add realOps.zero realOps.zero = realOps.zero := by simp [realOps]
  have hmul0 : realOps.mul realOps.zero realOps.zero = realOps.zero := by simp [realOps]
  ⟨hdiv, hmul, hsin, hadd, hmul0, (compute_zero realOps hdiv hmul hsin hadd hmul0).2.2.2.2⟩

/-- C6, refuted as stated: in exact arithmetic `compute (-1)` is not
`-compute 1`; both `compute (-1)` and `compute 1` are the same positive number. -/
theorem compute_not_antisymmetric :
    compute realOps (negInt WordSize.w64.bits 1) ≠ -compute realOps 1 := by
  have hneg : negInt WordSize.w64.bits 1 = -1 := by
    simp only [WordSize.bits, negInt, wrapInt_64]
    norm_num
  rw [hneg, compute_real_neg]
  have hpos := compute_real_one_pos
  intro h
  linarith

/-- C6, amended: for every `n` of Go's `int` type, `compute` is symmetric in the
sign of its argument, `compute (-n) = compute n`, where `-n` is the negation
computed on the `int` type (exact arithmetic): a negative `n` gives a negative
step width and a negated sum, whose product is the same result. -/
theorem compute_neg_symmetric (ws : WordSize) (n : Int) (hlo : minInt ws.bits ≤ n)
    (hhi : n ≤ maxInt ws.bits) :
    compute realOps (negInt ws.bits n) = compute realOps n ∧
    stepWidth realOps (-n) = -stepWidth realOps n ∧
    (loopRun realOps (stepWidth realOps (-n)) ⟨0, realOps.zero⟩).s =
      -(loopRun realOps (stepWidth realOps n) ⟨0, realOps.zero⟩).s := by
  refine ⟨?_, ?_, ?_⟩
  · rw [negInt_eq ws n hlo hhi]
    split_ifs
    · rfl
    · exact compute_real_neg n
  · simp only [stepWidth, realOps]
    push_cast
    ring
  · rw [loopRun_real_s, loopRun_real_s, ← Finset.sum_neg_distrib]
    apply Finset.sum_congr rfl
    intro i _
    rw [← Real.sin_neg]
    congr 1
    simp only [stepWidth, realOps]
    push_cast
    ring

/-- Witness of C6 (amended) at `n = 5` on a 64-bit target. -/
theorem compute_neg_symmetric_witness :
    minInt WordSize.w64.bits ≤ 5 ∧ 5 ≤ maxInt WordSize.w64.bits ∧
    compute realOps (negInt WordSize.w64.bits 5) = compute realOps 5 :=
  have hlo : minInt WordSize.w64.bits ≤ 5 := by simp [minInt, WordSize.bits]
  have hhi : 5 ≤ maxInt WordSize.w64.bits := by simp [maxInt, WordSize.bits]
  ⟨hlo, hhi, (compute_neg_symmetric .w64 5 hlo hhi).1⟩

/-- C9: accuracy of `compute` as an approximation of the integral of the sine
over `[0, n]`, in exact real arithmetic: for every integer `n`, with
`h = n / 200000`, `compute n * sin (h / 2) = h * sin (n / 2) ^ 2`, and
`|compute n - (1 - cos n)| ≤ |n| ^ 3 / (24 * 200000 ^ 2)`. -/
theorem compute_accuracy (n : Int) :
    compute realOps n * Real.sin ((n : ℝ) / 200000 / 2) =
      (n : ℝ) / 200000 * Real.sin ((n : ℝ) / 2) ^ 2 ∧
    |compute realOps n - (1 - Real.cos (n : ℝ))| ≤ |(n : ℝ)| ^ 3 / (24 * 200000 ^ 2) :=
  ⟨compute_real_closed_form n, compute_real_error n⟩

end GoService
